import Mathlib

set_option maxRecDepth 100000

/-!
Shallow embedding of the gzip/DEFLATE decompressor (Rust sources:
lib.rs, bit_reader.rs, huffman_coding.rs, tracking_writer.rs, gzip.rs,
deflate.rs) together with proofs about the embedded code.

Conventions of the embedding:
* bytes and machine integers are `Nat`; `u16` arithmetic that can wrap is
  reduced `% 65536` (release overflow semantics); values read from the wire
  are kept in range by construction;
* Rust operations that can panic (out-of-bounds indexing, remainder by
  zero, `Option::unwrap` on `None`) are modelled with `Option`/explicit
  `panicked` outcomes;
* fallible byte-source reads return `Option` (`none` = end of input);
* loops whose bound is data-dependent are given explicit fuel; running out
  of fuel is a distinguished outcome, never confused with normal results.
-/

/-! ## Error taxonomy: one constructor per bail site of the source -/

inductive Err where
  | eof                 -- io UnexpectedEof propagated as an error
  | wrongId             -- "wrong id values"
  | headerCrc           -- "header crc16 check failed"
  | unsupportedMethod   -- "unsupported compression method"
  | badBlockType        -- "unsupported block type"
  | nlenCheck           -- "nlen check failed"
  | invalidTree         -- "invalid tree"
  | undefinedSymbol     -- "undefined symbol"
  | badDist             -- "bad dist"
  | bufferOverflow      -- "buffer overflow"
  | writeZero           -- io WriteZero from write_all
  | lengthCheck         -- "length check failed"
  | crc32Check          -- "crc32 check failed"
deriving DecidableEq, Repr

/-! ## bit_reader.rs -/

/-- BitSequence: a pair of bits and length (invariant kept by masking in `new`). -/
structure BitSeq where
  bits : Nat
  len : Nat
deriving DecidableEq, Repr

/-- BitSequence::new masks `bits` to the low `len` bits. -/
def bsNew (bits len : Nat) : BitSeq := ⟨bits % 2 ^ len, len⟩

/-- BitSequence::concat: the other sequence goes into the higher bits. -/
def BitSeq.concat (a b : BitSeq) : BitSeq :=
  ⟨(b.bits <<< a.len) + a.bits, a.len + b.len⟩

/-- BitReader state: remaining byte stream plus the partial-byte buffer. -/
structure RdState where
  stream : List Nat
  buffer : BitSeq
deriving DecidableEq, Repr

/-- Loop body of BitReader::read_bits; `none` models the io EOF error. The
recursion is structural on the remaining byte stream: the only looping branch
of the `while` is the one that fetches the next byte from the source. -/
def readBitsGo : List Nat → BitSeq → BitSeq → Nat → Option (BitSeq × RdState)
  | stream, buffer, result, 0 => some (result, ⟨stream, buffer⟩)
  | stream, buffer, result, len' + 1 =>
    if len' + 1 ≤ buffer.len then
      some (result.concat (bsNew (buffer.bits % 2 ^ (len' + 1)) (len' + 1)),
        ⟨stream, ⟨buffer.bits >>> (len' + 1), buffer.len - (len' + 1)⟩⟩)
    else
      match stream with
      | [] => none
      | byte :: rest =>
        readBitsGo rest (bsNew byte 8) (result.concat buffer)
          (len' + 1 - buffer.len)

/-- BitReader::read_bits. -/
def readBits (st : RdState) (len : Nat) : Option (BitSeq × RdState) :=
  readBitsGo st.stream st.buffer (bsNew 0 0) len

/-- BitReader::borrow_reader_from_boundary drops the buffered bits. -/
def borrowFromBoundary (st : RdState) : List Nat := st.stream

/-! ## CRC-32 (ISO-HDLC, reflected, poly 0xEDB88320) as used by the crc crate -/

def crcPoly : Nat := 0xEDB88320

def crcStepBit (s : Nat) : Nat :=
  if s % 2 = 1 then (s >>> 1) ^^^ crcPoly else s >>> 1

def crcBits : Nat → Nat → Nat
  | s, 0 => s
  | s, k + 1 => crcBits (crcStepBit s) k

def crcByteStep (s b : Nat) : Nat := crcBits (s ^^^ b) 8

def crcUpdate (s : Nat) (bytes : List Nat) : Nat := bytes.foldl crcByteStep s

def crcInit : Nat := 0xFFFFFFFF

def crcFinalize (s : Nat) : Nat := s ^^^ 0xFFFFFFFF

/-! ## huffman_coding.rs: token alphabets -/

inductive TreeCodeToken where
  | length (value : Nat)
  | copyPrev
  | repeatZero (base : Nat) (extraBits : Nat)
deriving DecidableEq, Repr

/-- TryFrom of HuffmanCodeWord for TreeCodeToken. -/
def tryFromTreeCode (v : Nat) : Option TreeCodeToken :=
  if v ≤ 15 then some (.length v)
  else if v = 16 then some .copyPrev
  else if v = 17 then some (.repeatZero 3 3)
  else if v = 18 then some (.repeatZero 11 7)
  else none

inductive LitLenToken where
  | literal (byte : Nat)
  | endOfBlock
  | length (base : Nat) (extraBits : Nat)
deriving DecidableEq, Repr

/-- TryFrom of HuffmanCodeWord for LitLenToken (RFC 1951 length table as coded). -/
def tryFromLitLen (v : Nat) : Option LitLenToken :=
  if v < 256 then some (.literal v)
  else if v = 256 then some .endOfBlock
  else if v = 257 then some (.length 3 0)
  else if v = 258 then some (.length 4 0)
  else if v = 259 then some (.length 5 0)
  else if v = 260 then some (.length 6 0)
  else if v = 261 then some (.length 7 0)
  else if v = 262 then some (.length 8 0)
  else if v = 263 then some (.length 9 0)
  else if v = 264 then some (.length 10 0)
  else if v = 265 then some (.length 11 1)
  else if v = 266 then some (.length 13 1)
  else if v = 267 then some (.length 15 1)
  else if v = 268 then some (.length 17 1)
  else if v = 269 then some (.length 19 2)
  else if v = 270 then some (.length 23 2)
  else if v = 271 then some (.length 27 2)
  else if v = 272 then some (.length 31 2)
  else if v = 273 then some (.length 35 3)
  else if v = 274 then some (.length 43 3)
  else if v = 275 then some (.length 51 3)
  else if v = 276 then some (.length 59 3)
  else if v = 277 then some (.length 67 4)
  else if v = 278 then some (.length 83 4)
  else if v = 279 then some (.length 99 4)
  else if v = 280 then some (.length 115 4)
  else if v = 281 then some (.length 131 5)
  else if v = 282 then some (.length 163 5)
  else if v = 283 then some (.length 195 5)
  else if v = 284 then some (.length 227 5)
  else if v = 285 then some (.length 258 0)
  else none

structure DistanceToken where
  base : Nat
  extraBits : Nat
deriving DecidableEq, Repr

/-- TryFrom of HuffmanCodeWord for DistanceToken (RFC 1951 distance table as coded). -/
def tryFromDist (v : Nat) : Option DistanceToken :=
  if v = 0 then some ⟨1, 0⟩
  else if v = 1 then some ⟨2, 0⟩
  else if v = 2 then some ⟨3, 0⟩
  else if v = 3 then some ⟨4, 0⟩
  else if v = 4 then some ⟨5, 1⟩
  else if v = 5 then some ⟨7, 1⟩
  else if v = 6 then some ⟨9, 2⟩
  else if v = 7 then some ⟨13, 2⟩
  else if v = 8 then some ⟨17, 3⟩
  else if v = 9 then some ⟨25, 3⟩
  else if v = 10 then some ⟨33, 4⟩
  else if v = 11 then some ⟨49, 4⟩
  else if v = 12 then some ⟨65, 5⟩
  else if v = 13 then some ⟨97, 5⟩
  else if v = 14 then some ⟨129, 6⟩
  else if v = 15 then some ⟨193, 6⟩
  else if v = 16 then some ⟨257, 7⟩
  else if v = 17 then some ⟨385, 7⟩
  else if v = 18 then some ⟨513, 8⟩
  else if v = 19 then some ⟨769, 8⟩
  else if v = 20 then some ⟨1025, 9⟩
  else if v = 21 then some ⟨1537, 9⟩
  else if v = 22 then some ⟨2049, 10⟩
  else if v = 23 then some ⟨3073, 10⟩
  else if v = 24 then some ⟨4097, 11⟩
  else if v = 25 then some ⟨6145, 11⟩
  else if v = 26 then some ⟨8193, 12⟩
  else if v = 27 then some ⟨12289, 12⟩
  else if v = 28 then some ⟨16385, 13⟩
  else if v = 29 then some ⟨24577, 13⟩
  else none

/-! ## huffman_coding.rs: HuffmanCoding (HashMap modelled as an assoc list) -/

/-- Wrapping u16 arithmetic (release overflow semantics). -/
def w16 (n : Nat) : Nat := n % 65536

/-- HashMap::insert: replace an existing key, else append. -/
def insertA {α : Type} (m : List (BitSeq × α)) (k : BitSeq) (v : α) :
    List (BitSeq × α) :=
  if m.any (fun p => p.1 == k) then
    m.map (fun p => if p.1 == k then (k, v) else p)
  else m ++ [(k, v)]

/-- HashMap::get for the code map. -/
def lookupA {α : Type} (m : List (BitSeq × α)) (k : BitSeq) : Option α :=
  (m.find? (fun p => p.1 == k)).map Prod.snd

/-- Functional update, modelling writes to a Vec cell. -/
def updFn (f : Nat → Nat) (i v : Nat) : Nat → Nat :=
  fun j => if j = i then v else f j

/-- One step of the bl_count loop of from_lengths: `bl_count[cl] += 1` on a
16-entry vector; an entry `≥ 16` is an out-of-bounds index, i.e. a panic
(`none`). -/
def blCountStep (acc : Option (Nat → Nat)) (cl : Nat) : Option (Nat → Nat) :=
  match acc with
  | none => none
  | some f => if cl < 16 then some (updFn f cl (w16 (f cl + 1))) else none

/-- First loop of from_lengths. -/
def blCountLoop (ls : List Nat) : Option (Nat → Nat) :=
  ls.foldl blCountStep (some fun _ => 0)

/-- The `next_code` recurrence of from_lengths:
`code = (code + bl_count[bits - 1]) << 1` in u16 arithmetic. -/
def nextCodeVal (blc : Nat → Nat) : Nat → Nat
  | 0 => 0
  | b + 1 => w16 ((nextCodeVal blc b + blc b) <<< 1)

/-- One iteration of the symbol-assignment loop of from_lengths: state is
`(next_code, map)`, the pair is `(code index, code length)`. On a conversion
failure the `continue` skips both the insert and the increment. -/
def assignStep {α : Type} (tryFrom : Nat → Option α)
    (st : (Nat → Nat) × List (BitSeq × α)) (p : Nat × Nat) :
    (Nat → Nat) × List (BitSeq × α) :=
  if p.2 = 0 then st
  else
    match tryFrom p.1 with
    | some v =>
      (updFn st.1 p.2 (w16 (st.1 p.2 + 1)),
        insertA st.2 (bsNew (st.1 p.2) p.2) v)
    | none => st

/-- HuffmanCoding::from_lengths; `none` is the bl_count out-of-bounds panic. -/
def fromLengths {α : Type} (tryFrom : Nat → Option α) (codeLengths : List Nat) :
    Option (List (BitSeq × α)) :=
  match blCountLoop codeLengths with
  | none => none
  | some blc0 =>
    let blc := updFn blc0 0 0
    let nc0 := nextCodeVal blc
    some (codeLengths.enum.foldl (assignStep tryFrom) (nc0, [])).2

/-- Loop body of HuffmanCoding::read_symbol: read one bit, prepend it as the
new least-significant bit, look the grown code up; fuel counts the remaining
iterations of `for _ in 1..=MAX_BITS`. -/
def readSymbolGo {α : Type} (m : List (BitSeq × α)) (st : RdState)
    (cur : BitSeq) : Nat → Except Err (α × RdState)
  | 0 => .error .undefinedSymbol
  | fuel + 1 =>
    match readBits st 1 with
    | none => .error .eof
    | some (bit, st') =>
      let cur' := bit.concat cur
      match lookupA m cur' with
      | some v => .ok (v, st')
      | none => readSymbolGo m st' cur' fuel

/-- HuffmanCoding::read_symbol (MAX_BITS = 15). -/
def readSymbol {α : Type} (m : List (BitSeq × α)) (st : RdState) :
    Except Err (α × RdState) :=
  readSymbolGo m st (bsNew 0 0) 15

/-- get_fixed_tree: the fixed literal/length code lengths. -/
def fixedLitLenLengths : List Nat :=
  List.replicate 144 8 ++ List.replicate 112 9 ++
    List.replicate 24 7 ++ List.replicate 8 8

/-- get_fixed_tree: the fixed distance code lengths. -/
def fixedDistLengths : List Nat := List.replicate 32 5

/-- get_fixed_tree. -/
def getFixedTree :
    Option (List (BitSeq × LitLenToken) × List (BitSeq × DistanceToken)) :=
  match fromLengths tryFromLitLen fixedLitLenLengths,
      fromLengths tryFromDist fixedDistLengths with
  | some l, some d => some (l, d)
  | _, _ => none

/-! ## tracking_writer.rs -/

/-- The inner byte sink: a bounded buffer (like `&mut [u8]` as Write): a write
accepts `min (requested, remaining capacity)` bytes and never fails. -/
structure SinkState where
  cap : Nat
  received : List Nat
deriving DecidableEq, Repr

/-- HISTORY_SIZE = 32768. Push one accepted byte into the ring, evicting the
oldest when full. -/
def pushByte (hist : List Nat) (b : Nat) : List Nat :=
  (if 32768 ≤ hist.length then hist.tail else hist) ++ [b]

def pushHistory (hist : List Nat) (bytes : List Nat) : List Nat :=
  bytes.foldl pushByte hist

/-- TrackingWriter state: inner sink, 32 KiB ring, byte counter, CRC digest. -/
structure TW where
  sink : SinkState
  buf : List Nat
  bytesCounter : Nat
  crc : Nat
deriving DecidableEq, Repr

/-- TrackingWriter::new. -/
def twNew (sink : SinkState) : TW := ⟨sink, [], 0, crcInit⟩

/-- TrackingWriter::write (the Write impl): forward to the inner sink, then
ring/CRC/counter are updated over the accepted prefix only. -/
def twWrite (w : TW) (bytes : List Nat) : Nat × TW :=
  let size := min bytes.length w.sink.cap
  let acc := bytes.take size
  (size,
    { sink := ⟨w.sink.cap - size, w.sink.received ++ acc⟩
      buf := pushHistory w.buf acc
      bytesCounter := w.bytesCounter + size
      crc := crcUpdate w.crc acc })

/-- Write::write_all: loop writes; a write accepting 0 bytes is the WriteZero
error (`false` flag), with the partially-updated writer. The fuel is an upper
bound on the iteration count (each non-final iteration consumes at least one
byte, so `bytes.length` iterations always suffice and the 0-fuel branch on a
nonempty buffer is unreachable from `twWriteAll`). -/
def twWriteAllGo : Nat → TW → List Nat → TW × Bool
  | _, w, [] => (w, true)
  | 0, w, _ :: _ => (w, false)
  | fuel + 1, w, b :: bs =>
    match twWrite w (b :: bs) with
    | (size, w') =>
      if size = 0 then (w', false)
      else twWriteAllGo fuel w' ((b :: bs).drop size)

def twWriteAll (w : TW) (bytes : List Nat) : TW × Bool :=
  twWriteAllGo bytes.length w bytes

/-- Rust `%`: remainder by zero panics. -/
def rustRem (a b : Nat) : Option Nat := if b = 0 then none else some (a % b)

/-- One byte of the write_previous copy loop:
`self.buf[self.buf.len() - dist + (idx % dist)]` (panics modelled). -/
def prevByte (hist : List Nat) (dist idx : Nat) : Option Nat :=
  match rustRem idx dist with
  | none => none
  | some r => hist[hist.length - dist + r]?

/-- The `for idx in 0..len` buffer-building loop of write_previous. -/
def buildFrom (hist : List Nat) (dist : Nat) : Nat → Nat → Option (List Nat)
  | _, 0 => some []
  | idx, len + 1 =>
    match prevByte hist dist idx, buildFrom hist dist (idx + 1) len with
    | some b, some rest => some (b :: rest)
    | _, _ => none

def buildPrevBuf (hist : List Nat) (dist len : Nat) : Option (List Nat) :=
  buildFrom hist dist 0 len

/-- Result of write_previous: the error cases carry the (possibly mutated)
writer, as the Rust method mutates `self` before reporting the error. -/
inductive WPRes where
  | ok (w : TW)
  | errWith (e : Err) (w : TW)
  | panicked
deriving DecidableEq, Repr

/-- TrackingWriter::write_previous. -/
def twWritePrevious (w : TW) (dist len : Nat) : WPRes :=
  if w.buf.length < dist then .errWith .badDist w
  else
    match buildPrevBuf w.buf dist len with
    | none => .panicked
    | some buf =>
      let p := twWrite w buf
      if p.1 < len then .errWith .bufferOverflow p.2 else .ok p.2

/-! ## Byte-source primitives (BufRead + byteorder reads) -/

def rdU8 : List Nat → Option (Nat × List Nat)
  | [] => none
  | b :: r => some (b, r)

def rdU16le (l : List Nat) : Option (Nat × List Nat) :=
  match rdU8 l with
  | none => none
  | some (b0, r0) =>
    match rdU8 r0 with
    | none => none
    | some (b1, r1) => some (b0 + 256 * b1, r1)

def rdU32le (l : List Nat) : Option (Nat × List Nat) :=
  match rdU16le l with
  | none => none
  | some (w0, r0) =>
    match rdU16le r0 with
    | none => none
    | some (w1, r1) => some (w0 + 65536 * w1, r1)

/-- read_exact: fails (panic at the call sites in read_header) on short input. -/
def rdExact (n : Nat) (l : List Nat) : Option (List Nat × List Nat) :=
  if n ≤ l.length then some (l.take n, l.drop n) else none

/-- BufRead::read_until(0): bytes up to and including the delimiter; on EOF the
delimiter is absent and everything read so far is returned without error. -/
def rdUntilZero : List Nat → List Nat × List Nat
  | [] => ([], [])
  | b :: r =>
    if b = 0 then ([0], r)
    else
      match rdUntilZero r with
      | (s, rest) => (b :: s, rest)

def u16leBytes (n : Nat) : List Nat := [n % 256, n / 256 % 256]

def u32leBytes (n : Nat) : List Nat :=
  [n % 256, n / 256 % 256, n / 65536 % 256, n / 16777216 % 256]

/-! ## gzip.rs -/

/-- MemberHeader (strings kept as the raw bytes read by read_string; note that
read_until leaves the NUL terminator inside the buffer). -/
structure MemberHeader where
  compressionMethod : Nat
  modificationTime : Nat
  extra : Option (List Nat)
  name : Option (List Nat)
  comment : Option (List Nat)
  extraFlags : Nat
  os : Nat
  hasCrc : Bool
  isText : Bool
deriving DecidableEq, Repr

/-- MemberHeader::flags: the FLG byte reconstructed from the parsed fields
(reserved bits are never represented). -/
def hdrFlags (h : MemberHeader) : Nat :=
  (if h.isText then 1 else 0) + (if h.hasCrc then 2 else 0) +
    (if h.extra.isSome then 4 else 0) + (if h.name.isSome then 8 else 0) +
    (if h.comment.isSome then 16 else 0)

/-- MemberHeader::crc16: CRC-32 over the RECONSTRUCTED header bytes, low 16
bits. For name/comment the stored bytes (which already contain the NUL) are
digested and another NUL byte is appended, exactly as in the source. -/
def hdrCrc16 (h : MemberHeader) : Nat :=
  let bytes :=
    [31, 139, h.compressionMethod, hdrFlags h] ++
      u32leBytes h.modificationTime ++ [h.extraFlags, h.os] ++
      (match h.extra with
       | some e => u16leBytes e.length ++ e
       | none => []) ++
      (match h.name with
       | some nm => nm ++ [0]
       | none => []) ++
      (match h.comment with
       | some c => c ++ [0]
       | none => [])
  crcFinalize (crcUpdate crcInit bytes) % 65536

/-- FLG bit test. -/
def flgBit (flg n : Nat) : Bool := (flg >>> n) % 2 = 1

/-- Result of GzipReader::read_header: `endOfInput` is the `None` of the
Option-returning method (clean end of stream), `hPanicked` models the
`.unwrap()` calls on the early header reads. -/
inductive HdrResult where
  | endOfInput
  | hErr (e : Err)
  | hPanicked
  | hOk (h : MemberHeader) (flg : Nat) (rest : List Nat)
deriving DecidableEq, Repr

/-- GzipReader::read_header, mirroring the source's control flow: EOF on the
first byte is `None`; EOF on id2/cm is an error; EOF on flags, mtime, xflags,
os and the FEXTRA fields hits `.unwrap()` (panic); EOF inside name/comment is
silently accepted by read_until; EOF on the FHCRC u16 is `.ok()?`, i.e.
`None` again. -/
def readHeader (input : List Nat) : HdrResult :=
  match rdU8 input with
  | none => .endOfInput
  | some (id1, r1) =>
    match rdU8 r1 with
    | none => .hErr .eof
    | some (id2, r2) =>
      if id1 ≠ 31 ∨ id2 ≠ 139 then .hErr .wrongId
      else
        match rdU8 r2 with
        | none => .hErr .eof
        | some (cm, r3) =>
          match rdU8 r3 with
          | none => .hPanicked
          | some (flg, r4) =>
            match rdU32le r4 with
            | none => .hPanicked
            | some (mtime, r5) =>
              match rdU8 r5 with
              | none => .hPanicked
              | some (xfl, r6) =>
                match rdU8 r6 with
                | none => .hPanicked
                | some (os, r7) =>
                  match
                    (if flgBit flg 2 then
                      match rdU16le r7 with
                      | none => none
                      | some (xlen, r8) =>
                        match rdExact xlen r8 with
                        | none => none
                        | some (e, r9) => some (some e, r9)
                    else some (none, r7) :
                      Option (Option (List Nat) × List Nat))
                  with
                  | none => .hPanicked
                  | some (extra, r10) =>
                    let pn :=
                      if flgBit flg 3 then
                        match rdUntilZero r10 with
                        | (nm, r11) => (some nm, r11)
                      else (none, r10)
                    let pc :=
                      if flgBit flg 4 then
                        match rdUntilZero pn.2 with
                        | (cmt, r12) => (some cmt, r12)
                      else (none, pn.2)
                    let hdr : MemberHeader :=
                      { compressionMethod := cm
                        modificationTime := mtime
                        extra := extra
                        name := pn.1
                        comment := pc.1
                        extraFlags := xfl
                        os := os
                        hasCrc := flgBit flg 1
                        isText := flgBit flg 0 }
                    if flgBit flg 1 then
                      match rdU16le pc.2 with
                      | none => .endOfInput
                      | some (stored, r13) =>
                        if stored ≠ hdrCrc16 hdr then .hErr .headerCrc
                        else .hOk hdr flg r13
                    else .hOk hdr flg pc.2

/-- MemberFooter. -/
structure Footer where
  dataCrc32 : Nat
  dataSize : Nat
deriving DecidableEq, Repr

/-- MemberReader::read_footer: CRC32 then ISIZE, little-endian. -/
def readFooter (l : List Nat) : Option (Footer × List Nat) :=
  match rdU32le l with
  | none => none
  | some (c, r0) =>
    match rdU32le r0 with
    | none => none
    | some (s, r1) => some (⟨c, s⟩, r1)

/-- The two footer comparisons of decompress (lib.rs): the byte counter is
compared EXACTLY against ISIZE (no reduction modulo 2^32), then the CRC. -/
def checkMember (f : Footer) (byteCount : Nat) (crc : Nat) : Option Err :=
  if f.dataSize ≠ byteCount then some .lengthCheck
  else if f.dataCrc32 ≠ crc then some .crc32Check
  else none

/-! ## deflate.rs and the dynamic-tree decoder of huffman_coding.rs -/

/-- DeflateReader state. -/
structure DeflState where
  rd : RdState
  dataLeft : Bool
deriving DecidableEq, Repr

inductive CType where
  | uncompressed
  | fixedTree
  | dynamicTree
deriving DecidableEq, Repr

/-- Result of DeflateReader::next_block. -/
inductive NextBlock where
  | done
  | nbErr (e : Err)
  | nb (isFinal : Bool) (ctype : CType) (ds : DeflState)
deriving DecidableEq, Repr

/-- DeflateReader::next_block. -/
def nextBlock (ds : DeflState) : NextBlock :=
  if ¬ds.dataLeft then .done
  else
    match readBits ds.rd 1 with
    | none => .nbErr .eof
    | some (fin, rd1) =>
      let dataLeft := fin.bits = 0
      match readBits rd1 2 with
      | none => .nbErr .eof
      | some (ct, rd2) =>
        match ct.bits with
        | 0 => .nb (!dataLeft) .uncompressed ⟨rd2, dataLeft⟩
        | 1 => .nb (!dataLeft) .fixedTree ⟨rd2, dataLeft⟩
        | 2 => .nb (!dataLeft) .dynamicTree ⟨rd2, dataLeft⟩
        | _ => .nbErr .badBlockType

/-- The permutation order of the code-length code lengths. -/
def lengthsMap : List Nat :=
  [16, 17, 18, 0, 8, 7, 9, 6, 10, 5, 11, 4, 12, 3, 13, 2, 14, 1, 15]

/-- The `for i in 0..hclen` loop filling bl_tree: `remaining` counts the
iterations still to run, `i` is the loop index. -/
def readClcLengths : Nat → RdState → (Nat → Nat) → Nat →
    Option ((Nat → Nat) × RdState)
  | 0, rd, f, _ => some (f, rd)
  | remaining + 1, rd, f, i =>
    match readBits rd 3 with
    | none => none
    | some (v, rd') =>
      readClcLengths remaining rd' (updFn f (lengthsMap.getD i 0) v.bits) (i + 1)

/-- Result type for the tree-decoding stage. -/
inductive TokRes where
  | tOk (tokens : List Nat) (rd : RdState)
  | tErr (e : Err)
  | tNoFuel
deriving DecidableEq, Repr

/-- The `while tokens.len() < hlit + hdist` token-reading loop of
decode_litlen_distance_trees. Nothing stops a repeat from running past the
target count; the loop simply exits once the count is reached or exceeded. -/
def readTokens (mapper : List (BitSeq × TreeCodeToken)) (target : Nat)
    (fuel : Nat) (rd : RdState) (tokens : List Nat) : TokRes :=
  match fuel with
  | 0 => .tNoFuel
  | fuel + 1 =>
    if tokens.length < target then
      match readSymbol mapper rd with
      | .error e => .tErr e
      | .ok (.length v, rd') =>
        readTokens mapper target fuel rd' (tokens ++ [v])
      | .ok (.copyPrev, rd') =>
        if tokens.isEmpty then .tErr .invalidTree
        else
          match readBits rd' 2 with
          | none => .tErr .eof
          | some (e, rd2) =>
            readTokens mapper target fuel rd2
              (tokens ++ List.replicate (e.bits + 3) (tokens.getLast?.getD 0))
      | .ok (.repeatZero base extraBits, rd') =>
        match readBits rd' extraBits with
        | none => .tErr .eof
        | some (e, rd2) =>
          readTokens mapper target fuel rd2
            (tokens ++ List.replicate (e.bits + base) 0)
    else .tOk tokens rd

/-- The distance-lengths fixup of decode_litlen_distance_trees: count the
decoded distance lengths equal to 1 and those greater than 1; when exactly one
length is 1 and nothing else is positive, the hard-coded vector [0, 31, 1] is
used instead. -/
def distCounts (potential : List Nat) : Nat × Nat :=
  potential.foldl
    (fun acc item =>
      match item with
      | 0 => acc
      | 1 => (acc.1 + 1, acc.2)
      | _ => (acc.1, acc.2 + 1))
    (0, 0)

def chooseDistLengths (potential : List Nat) : List Nat :=
  match distCounts potential with
  | (1, 0) => [0, 31, 1]
  | _ => potential

/-- Result of decode_litlen_distance_trees. -/
inductive TreesRes where
  | trOk (litlen : List (BitSeq × LitLenToken))
      (dist : List (BitSeq × DistanceToken)) (rd : RdState)
  | trErr (e : Err)
  | trPanicked
  | trNoFuel
deriving DecidableEq, Repr

/-- decode_litlen_distance_trees. -/
def decodeTrees (fuel : Nat) (rd : RdState) : TreesRes :=
  match readBits rd 5 with
  | none => .trErr .eof
  | some (h1, rd1) =>
    let hlit := h1.bits + 257
    match readBits rd1 5 with
    | none => .trErr .eof
    | some (h2, rd2) =>
      let hdist := h2.bits + 1
      match readBits rd2 4 with
      | none => .trErr .eof
      | some (h3, rd3) =>
        let hclen := h3.bits + 4
        match readClcLengths hclen rd3 (fun _ => 0) 0 with

        | none => .trErr .eof
        | some (blTree, rd4) =>
          match fromLengths tryFromTreeCode ((List.range 19).map blTree) with
          | none => .trPanicked
          | some mapper =>
            match readTokens mapper (hlit + hdist) fuel rd4 [] with
            | .tNoFuel => .trNoFuel
            | .tErr e => .trErr e
            | .tOk tokens rd5 =>
              match fromLengths tryFromLitLen (tokens.take hlit) with
              | none => .trPanicked
              | some litlenTree =>
                match
                  fromLengths tryFromDist
                    (chooseDistLengths (tokens.drop hlit))
                with
                | none => .trPanicked
                | some distTree => .trOk litlenTree distTree rd5

/-! ## lib.rs: block bodies, block loop, member loop -/

/-- Result of the inner loops of decompress. -/
inductive RunRes where
  | rOk (rd : RdState) (w : TW)
  | rErr (e : Err)
  | rPanicked
  | rNoFuel
deriving DecidableEq, Repr

/-- The literal/length/distance body loop of decompress. -/
def runBody (litlen : List (BitSeq × LitLenToken))
    (dist : List (BitSeq × DistanceToken)) (fuel : Nat) (rd : RdState)
    (w : TW) : RunRes :=
  match fuel with
  | 0 => .rNoFuel
  | fuel + 1 =>
    match readSymbol litlen rd with
    | .error e => .rErr e
    | .ok (.literal b, rd1) =>
      match twWriteAll w [b] with
      | (_, false) => .rErr .writeZero
      | (w1, true) => runBody litlen dist fuel rd1 w1
    | .ok (.endOfBlock, rd1) => .rOk rd1 w
    | .ok (.length base extraBits, rd1) =>
      match readBits rd1 extraBits with
      | none => .rErr .eof
      | some (e, rd2) =>
        let len := base + e.bits
        match readSymbol dist rd2 with
        | .error er => .rErr er
        | .ok (dtok, rd3) =>
          match readBits rd3 dtok.extraBits with
          | none => .rErr .eof
          | some (f, rd4) =>
            let d := dtok.base + f.bits
            match twWritePrevious w d len with
            | .panicked => .rPanicked
            | .errWith er _ => .rErr er
            | .ok w1 => runBody litlen dist fuel rd4 w1

/-- The `for _ in 0..len` byte-copy loop of a stored block: read LEN bytes
from the realigned source one at a time, pushing each through write_all. -/
def runStoredRes (len : Nat) (bytes : List Nat) (w : TW) : RunRes :=
  match len with
  | 0 => .rOk ⟨bytes, bsNew 0 0⟩ w
  | len + 1 =>
    match rdU8 bytes with
    | none => .rErr .eof
    | some (b, rest) =>
      match twWriteAll w [b] with
      | (_, false) => .rErr .writeZero
      | (w1, true) => runStoredRes len rest w1

/-- The block loop of decompress (`while let Some(block) = next_block()`). -/
def runBlocks (fuel : Nat) (ds : DeflState) (w : TW) : RunRes :=
  match fuel with
  | 0 => .rNoFuel
  | fuel + 1 =>
    match nextBlock ds with
    | .done => .rOk ds.rd w
    | .nbErr e => .rErr e
    | .nb _ .uncompressed ds1 =>
      match rdU16le (borrowFromBoundary ds1.rd) with
      | none => .rErr .eof
      | some (len, r1) =>
        match rdU16le r1 with
        | none => .rErr .eof
        | some (nlen, r2) =>
          if len ≠ 65535 - nlen then .rErr .nlenCheck
          else
            match runStoredRes len r2 w with
            | .rOk rd' w' => runBlocks fuel ⟨rd', ds1.dataLeft⟩ w'
            | other => other
    | .nb _ .fixedTree ds1 =>
      match getFixedTree with
      | none => .rPanicked
      | some (litlen, dist) =>
        match runBody litlen dist fuel ds1.rd w with
        | .rOk rd' w' => runBlocks fuel ⟨rd', ds1.dataLeft⟩ w'
        | other => other
    | .nb _ .dynamicTree ds1 =>
      match decodeTrees fuel ds1.rd with
      | .trErr e => .rErr e
      | .trPanicked => .rPanicked
      | .trNoFuel => .rNoFuel
      | .trOk litlen dist rd' =>
        match runBody litlen dist fuel rd' w with
        | .rOk rd'' w' => runBlocks fuel ⟨rd'', ds1.dataLeft⟩ w'
        | other => other

/-- Overall outcome of decompress. -/
inductive Outcome where
  | ok (received : List Nat)
  | err (e : Err)
  | panicked
  | noFuel
deriving DecidableEq, Repr

/-- The member loop of decompress. -/
def decompressGo (fuel : Nat) (input : List Nat) (sink : SinkState) : Outcome :=
  match fuel with
  | 0 => .noFuel
  | fuel + 1 =>
    match readHeader input with
    | .endOfInput => .ok sink.received
    | .hErr e => .err e
    | .hPanicked => .panicked
    | .hOk hdr _flg rest =>
      if hdr.compressionMethod ≠ 8 then .err .unsupportedMethod
      else
        match runBlocks fuel ⟨⟨rest, bsNew 0 0⟩, true⟩ (twNew sink) with
        | .rErr e => .err e
        | .rPanicked => .panicked
        | .rNoFuel => .noFuel
        | .rOk rd w =>
          match readFooter (borrowFromBoundary rd) with
          | none => .err .eof
          | some (footer, rest2) =>
            match checkMember footer w.bytesCounter (crcFinalize w.crc) with
            | some e => .err e
            | none => decompressGo fuel rest2 w.sink

/-- decompress(input, output): fuelled driver over the members. -/
def decompress (fuel : Nat) (input : List Nat) (sink : SinkState) : Outcome :=
  decompressGo fuel input sink

/-! ## Specification-level helpers for the canonical-code claims

These definitions restate the RFC 1951 canonical construction (spec section
4.2) in closed form, for comparison with `fromLengths`. -/

/-- Kraft sum of a length vector, scaled by 2^15 (MAX_BITS = 15). -/
def kraftSum (L : List Nat) : Nat :=
  (L.map (fun l => if l = 0 then 0 else 2 ^ (15 - l))).sum

/-- The RFC 1951 next_code recurrence in exact arithmetic:
`firstCode L b` is the smallest canonical code of length `b`. -/
def firstCode (L : List Nat) : Nat → Nat
  | 0 => 0
  | b + 1 => 2 * (firstCode L b + if b = 0 then 0 else L.count b)

/-- Rank of symbol `s` among the earlier symbols of the same code length. -/
def rankOf (L : List Nat) (s : Nat) : Nat := (L.take s).count (L.getD s 0)

/-- The canonical code value assigned to symbol `s`. -/
def canonCode (L : List Nat) (s : Nat) : Nat :=
  firstCode L (L.getD s 0) + rankOf L s

/-- The code map built by the assignment loop after processing symbols
`0, ..., i - 1` (with a total conversion). -/
def canonEntries (L : List Nat) : Nat → List (BitSeq × Nat)
  | 0 => []
  | i + 1 =>
    canonEntries L i ++
      (if i < L.length ∧ L.getD i 0 ≠ 0 then
        [(⟨canonCode L i, L.getD i 0⟩, i)]
      else [])

/-- Partial sum `Σ_{b = 1}^{n} count(b) * 2^(n - b)`, by recurrence. -/
def sAux (L : List Nat) : Nat → Nat
  | 0 => 0
  | b + 1 => 2 * sAux L b + L.count (b + 1)

/-- The bits of a code word, most significant first (bit-stream order). -/
def codeBitsMSB (c l : Nat) : List Bool :=
  (List.range l).map (fun i => c.testBit (l - 1 - i))

def bitVal (b : Bool) : Nat := if b then 1 else 0

/-- The pending bits of a BitReader buffer, in consumption order. -/
def bufBitsList (b : BitSeq) : List Bool :=
  (List.range b.len).map (fun i => b.bits.testBit i)

/-- The bits of one byte, least significant first. -/
def byteBits (y : Nat) : List Bool := (List.range 8).map (fun i => y.testBit i)

def streamBits : List Nat → List Bool
  | [] => []
  | y :: r => byteBits y ++ streamBits r

/-- Every bit a BitReader state will deliver, in delivery order. -/
def rdView (st : RdState) : List Bool :=
  bufBitsList st.buffer ++ streamBits st.stream

/-- Well-formedness of a reader buffer (maintained by all reads). -/
def rdInv (st : RdState) : Prop := st.buffer.bits < 2 ^ st.buffer.len

/-! ## Concrete byte streams used by individual claims -/

/-- A valid gzip member (RFC 1952/1951): empty FLG, dynamic block with
HLIT = 257, HDIST = 1, litlen lengths `1, 0 x 255, 1` (symbols 0 and 256),
one distance code of length 1 (the one-distance-code case of RFC 1951
section 3.2.7), empty payload, CRC32 = 0, ISIZE = 0. -/
def c1Input : List Nat :=
  [0x1f, 0x8b, 0x08, 0x00, 0, 0, 0, 0, 0x00, 0x03,
   0x05, 0xC0, 0x81, 0x00, 0x00, 0x00, 0x00, 0x00, 0x10, 0xFF, 0xD5, 0x04,
   0, 0, 0, 0, 0, 0, 0, 0]

/-- The header bytes of a member with FHCRC and FNAME set, name "A".
The FHCRC field (not part of these bytes) follows them on the wire. -/
def c4HeaderBytes : List Nat := [31, 139, 8, 10, 0, 0, 0, 0, 0, 3, 65, 0]

/-- A gzip stream whose FLG byte has reserved bit 5 set, followed by an empty
stored block and a correct footer for the empty payload. -/
def c7Input : List Nat :=
  [0x1f, 0x8b, 0x08, 0x20, 0, 0, 0, 0, 0x00, 0x03,
   0x01, 0x00, 0x00, 0xff, 0xff,
   0, 0, 0, 0, 0, 0, 0, 0]

/-- A truncated gzip stream ending right before the FHCRC u16 field. -/
def c8FhcrcEof : List Nat := [31, 139, 8, 2, 0, 0, 0, 0, 0, 3]

/-- Dynamic-block bits (starting at HLIT) with HLIT = 257, HDIST = 1, whose
code-length token sequence reaches 256 entries and then a RepeatZero of 4
overshoots the 258 target, ending with 260 entries. -/
def c9rd : RdState :=
  ⟨[0x00, 0x38, 0x24, 0x00, 0x00, 0x00, 0x00, 0x00, 0xE2, 0xFF, 0xEA, 0x02],
    bsNew 0 0⟩

/-- Probe mirroring the prefix of decode_litlen_distance_trees: it returns
the target count `hlit + hdist` together with the length of the decoded
code-length token sequence. -/
def decodeTreesProbe (fuel : Nat) (rd : RdState) : Option (Nat × Nat) :=
  match readBits rd 5 with
  | none => none
  | some (h1, rd1) =>
    match readBits rd1 5 with
    | none => none
    | some (h2, rd2) =>
      match readBits rd2 4 with
      | none => none
      | some (h3, rd3) =>
        match readClcLengths (h3.bits + 4) rd3 (fun _ => 0) 0 with
        | none => none
        | some (blTree, rd4) =>
          match fromLengths tryFromTreeCode ((List.range 19).map blTree) with
          | none => none
          | some mapper =>
            match readTokens mapper (h1.bits + 257 + (h2.bits + 1)) fuel rd4 []
            with
            | .tOk tokens _ =>
              some (h1.bits + 257 + (h2.bits + 1), tokens.length)
            | _ => none

/-- The reader state of `c1Input` at the entry of decode_litlen_distance_trees
(BFINAL and BTYPE already consumed). -/
def c1DynRd : RdState :=
  ⟨[0xC0, 0x81, 0x00, 0x00, 0x00, 0x00, 0x00, 0x10, 0xFF, 0xD5, 0x04],
    ⟨0, 5⟩⟩

/-! ## Helper lemmas -/

theorem foldl_blCountStep_none (ls : List Nat) :
    ls.foldl blCountStep none = none := by
  induction ls with
  | nil => rfl
  | cons a rest ih => simpa [blCountStep] using ih

theorem foldl_blCountStep_big (ls : List Nat) :
    ∀ f : Nat → Nat, (∃ x ∈ ls, 15 < x) →
      ls.foldl blCountStep (some f) = none := by
  induction ls with
  | nil => intro f h; rcases h with ⟨x, hx, _⟩; cases hx
  | cons a rest ih =>
    intro f h
    by_cases ha : a < 16
    · have hrest : ∃ x ∈ rest, 15 < x := by
        rcases h with ⟨x, hx, hgt⟩
        rcases List.mem_cons.mp hx with rfl | hmem
        · omega
        · exact ⟨x, hmem, hgt⟩
      simp only [List.foldl_cons, blCountStep, ha, if_pos]
      exact ih _ hrest
    · simp only [List.foldl_cons, blCountStep, ha, if_neg, ite_false]
      exact foldl_blCountStep_none rest

/-! ## Claim theorems (concrete code evaluations and general properties) -/

/-- Claim C1. The claim states that decompress succeeds on every valid
RFC 1952 stream. `c1Input` is a valid member (dynamic block whose distance
tree is the RFC 1951 section 3.2.7 one-distance-code case, empty payload,
correct CRC32/ISIZE); the implementation panics on it: the distance-length
fixup substitutes the vector [0, 31, 1] and from_lengths then indexes the
16-entry bl_count array at 31. -/
theorem decompress_panics_on_valid_single_distance_member :
    decompress 1000 c1Input ⟨1000, []⟩ = .panicked := by decide

/-- Claim C4. The header CRC16 comparison digests the reconstructed header in
which a name contributes its bytes (already containing the NUL terminator,
since read_until keeps it) plus a second NUL. `c4HeaderBytes` is a member
header with FHCRC and FNAME, name "A"; its true header CRC16 (low 16 bits of
CRC-32 over the header bytes preceding the CRC field) is 3150, yet the code
rejects a member storing 3150 and accepts one storing 50966, the CRC of the
NUL-doubled reconstruction. -/
theorem header_crc_check_uses_doubled_nul :
    crcFinalize (crcUpdate crcInit c4HeaderBytes) % 65536 = 3150 ∧
    readHeader (c4HeaderBytes ++ [78, 12]) = .hErr .headerCrc ∧
    readHeader (c4HeaderBytes ++ [22, 199]) =
      .hOk ⟨8, 0, none, some [65, 0], none, 0, 3, true, false⟩ 10 [] := by
  decide

/-- Claim C5. Part one: from_lengths applied to any slice containing a length
greater than 15 panics (out-of-bounds index into the 16-entry bl_count
vector), for every symbol alphabet. Part two: the distance-length selection
of decode_litlen_distance_trees substitutes the vector [0, 31, 1] whenever
exactly one decoded distance length equals 1 and no other length is positive,
and from_lengths panics on that vector; the panic is reachable from
decompress, as the run of decode_litlen_distance_trees on the dynamic block
of `c1Input` shows. -/
theorem from_lengths_oob_panic :
    (∀ (α : Type) (tryFrom : Nat → Option α) (L : List Nat),
      (∃ x ∈ L, 15 < x) → fromLengths tryFrom L = none) ∧
    (∀ potential : List Nat, distCounts potential = (1, 0) →
      chooseDistLengths potential = [0, 31, 1]) ∧
    (∀ (α : Type) (tryFrom : Nat → Option α),
      fromLengths tryFrom [0, 31, 1] = none) ∧
    decodeTrees 1000 c1DynRd = .trPanicked := by
  refine ⟨?_, ?_, ?_, by decide⟩
  · intro α tryFrom L h
    unfold fromLengths blCountLoop
    rw [foldl_blCountStep_big L _ h]
  · intro potential h
    unfold chooseDistLengths
    rw [h]
  · intro α tryFrom
    rfl

/-- Witness for the hypotheses of `from_lengths_oob_panic`: the vector
[0, 31, 1] itself contains 31 > 15, and the singleton distance-length list
[1] has exactly one length 1 and no other positive length. -/
theorem from_lengths_oob_panic_witness :
    ((∃ x ∈ [0, 31, 1], 15 < x) ∧
      fromLengths (fun n => some n) [0, 31, 1] =
        (none : Option (List (BitSeq × Nat)))) ∧
    distCounts [1] = (1, 0) ∧ chooseDistLengths [1] = [0, 31, 1] :=
  ⟨⟨⟨31, by decide, by decide⟩,
    from_lengths_oob_panic.1 Nat (fun n => some n) [0, 31, 1]
      ⟨31, by decide, by decide⟩⟩,
   by decide, from_lengths_oob_panic.2.1 [1] (by decide)⟩

/-- Claim C6. The member-finalization comparisons of decompress check the
stored ISIZE for exact equality with the byte counter, not equality modulo
2^32: at a byte count of 2^32 with stored ISIZE 0 (which agrees modulo 2^32)
and matching CRC, the code still reports the length error. -/
theorem footer_length_check_not_modulo :
    checkMember ⟨0, 0⟩ (2 ^ 32) 0 = some .lengthCheck ∧
    (2 ^ 32) % 2 ^ 32 = 0 ∧
    checkMember ⟨0, 0⟩ 0 0 = none := by decide

/-- Claim C7. A member whose FLG byte has reserved bit 5 set is not rejected:
decompress decodes `c7Input` (FLG = 0x20, one empty stored block) to
completion and returns Ok. -/
theorem reserved_flags_accepted :
    flgBit 0x20 5 = true ∧ decompress 100 c7Input ⟨1000, []⟩ = .ok [] := by
  decide

/-- Claim C8. End-of-input handling of read_header: EOF before the first byte
is a clean end (Ok), EOF after the first magic byte is an error, but EOF at
the FLG byte hits `.unwrap()` (panic) instead of an UnexpectedEof error, and
EOF at the FHCRC field is swallowed by `.ok()?` so that decompress terminates
as a clean end of input. -/
theorem header_eof_behavior :
    readHeader [] = .endOfInput ∧
    readHeader [31] = .hErr .eof ∧
    readHeader [31, 139, 8] = .hPanicked ∧
    readHeader c8FhcrcEof = .endOfInput ∧
    decompress 10 c8FhcrcEof ⟨100, []⟩ = .ok [] := by decide

/-- Claim C9. The code-length token loop of decode_litlen_distance_trees does
not fail when a repeat overshoots HLIT + HDIST: on `c9rd` the target is 258,
the decoded sequence ends with 260 entries, and decoding still returns Ok
(with the distance tree built from the three extra entries). -/
theorem tree_token_overshoot_accepted :
    decodeTreesProbe 1000 c9rd = some (258, 260) ∧
    decodeTrees 1000 c9rd =
      .trOk [(⟨0, 1⟩, .literal 0)] [] ⟨[], ⟨0, 4⟩⟩ := by decide

/-- Claim C10. write_previous with distance 0 and any positive length passes
the guard (which only rejects distances above the history size) and panics in
`idx % dist`, for every writer state. -/
theorem write_previous_zero_distance_panics (w : TW) (len : Nat)
    (h : 1 ≤ len) : twWritePrevious w 0 len = .panicked := by
  obtain ⟨l, rfl⟩ : ∃ l, len = l + 1 := ⟨len - 1, by omega⟩
  simp [twWritePrevious, buildPrevBuf, buildFrom, prevByte, rustRem]

/-- Witness for `write_previous_zero_distance_panics` at a concrete writer. -/
theorem write_previous_zero_distance_panics_witness :
    1 ≤ 1 ∧ twWritePrevious (twNew ⟨10, []⟩) 0 1 = .panicked :=
  ⟨by decide, write_previous_zero_distance_panics (twNew ⟨10, []⟩) 1 (by decide)⟩

theorem buildFrom_spec (hist : List Nat) (d : Nat) (hd : 1 ≤ d)
    (hdn : d ≤ hist.length) :
    ∀ l idx : Nat, ∃ out, buildFrom hist d idx l = some out ∧
      out.length = l ∧
      ∀ i, i < l → out[i]? = hist[hist.length - d + (idx + i) % d]? := by
  intro l
  induction l with
  | zero =>
    intro idx
    exact ⟨[], rfl, rfl, fun i hi => absurd hi (by omega)⟩
  | succ l ih =>
    intro idx
    obtain ⟨out, hout, hlen, hget⟩ := ih (idx + 1)
    have hr : rustRem idx d = some (idx % d) := by
      unfold rustRem
      rw [if_neg (by omega)]
    have hmod : idx % d < d := Nat.mod_lt _ (by omega)
    have hidx : hist.length - d + idx % d < hist.length := by omega
    obtain ⟨v, hv⟩ : ∃ v, hist[hist.length - d + idx % d]? = some v := by
      rw [List.getElem?_eq_getElem hidx]
      exact ⟨_, rfl⟩
    have hsome : prevByte hist d idx = some v := by
      unfold prevByte
      rw [hr]
      exact hv
    refine ⟨v :: out, ?_, by simp [hlen], ?_⟩
    · unfold buildFrom
      rw [hsome, hout]
    · intro i hi
      match i with
      | 0 =>
        simp only [List.getElem?_cons_zero, Nat.add_zero]
        exact hv.symm
      | i + 1 =>
        simp only [List.getElem?_cons_succ]
        have hh := hget i (by omega)
        rwa [show idx + 1 + i = idx + (i + 1) by omega] at hh

/-- Claim C3. write_previous on a writer holding `n` history bytes, with
`1 ≤ d ≤ n`: the copy loop builds exactly `l` bytes, the i-th being
`history[n - d + (i mod d)]`; when the inner sink accepts them all the bytes
are emitted and the ring, the byte counter and the CRC digest are updated
over them; when the sink accepts fewer than `l` bytes the call returns the
buffer-overflow error (after the partial state update). -/
theorem write_previous_spec (w : TW) (d l : Nat)
    (h1 : 1 ≤ d) (h2 : d ≤ w.buf.length) :
    ∃ out, buildPrevBuf w.buf d l = some out ∧
      out.length = l ∧
      (∀ i, i < l → out[i]? = w.buf[w.buf.length - d + i % d]?) ∧
      (l ≤ w.sink.cap →
        twWritePrevious w d l =
          .ok ⟨⟨w.sink.cap - l, w.sink.received ++ out⟩,
            pushHistory w.buf out, w.bytesCounter + l, crcUpdate w.crc out⟩) ∧
      (w.sink.cap < l →
        twWritePrevious w d l = .errWith .bufferOverflow (twWrite w out).2) := by
  obtain ⟨out, hout, hlen, hget⟩ := buildFrom_spec w.buf d h1 h2 l 0
  have hget' : ∀ i, i < l → out[i]? = w.buf[w.buf.length - d + i % d]? := by
    intro i hi
    simpa using hget i hi
  have hbp : buildPrevBuf w.buf d l = some out := hout
  have htake : out.take l = out := by
    rw [← hlen]
    exact List.take_length out
  refine ⟨out, hbp, hlen, hget', ?_, ?_⟩
  · intro hcap
    have hmin : min out.length w.sink.cap = l := by omega
    unfold twWritePrevious
    rw [if_neg (by omega), hbp]
    simp only [twWrite, hmin, htake]
    rw [if_neg (by omega)]
  · intro hcap
    have hmin : min out.length w.sink.cap = w.sink.cap := by omega
    unfold twWritePrevious
    rw [if_neg (by omega), hbp]
    simp only [twWrite, hmin]
    rw [if_pos (by omega)]

/-- Witness for `write_previous_spec`: three history bytes, distance 2,
length 5 (a self-overlapping copy). -/
theorem write_previous_spec_witness :
    (1 ≤ 2 ∧ 2 ≤ (([7, 8, 9] : List Nat)).length) ∧
    (∃ out, buildPrevBuf (TW.mk ⟨10, []⟩ [7, 8, 9] 3 crcInit).buf 2 5 = some out ∧
      out.length = 5 ∧
      (∀ i, i < 5 → out[i]? =
        (TW.mk ⟨10, []⟩ [7, 8, 9] 3 crcInit).buf[
          (TW.mk ⟨10, []⟩ [7, 8, 9] 3 crcInit).buf.length - 2 + i % 2]?) ∧
      (5 ≤ (TW.mk ⟨10, []⟩ [7, 8, 9] 3 crcInit).sink.cap →
        twWritePrevious (TW.mk ⟨10, []⟩ [7, 8, 9] 3 crcInit) 2 5 =
          .ok ⟨⟨(TW.mk ⟨10, []⟩ [7, 8, 9] 3 crcInit).sink.cap - 5,
              (TW.mk ⟨10, []⟩ [7, 8, 9] 3 crcInit).sink.received ++ out⟩,
            pushHistory (TW.mk ⟨10, []⟩ [7, 8, 9] 3 crcInit).buf out,
            (TW.mk ⟨10, []⟩ [7, 8, 9] 3 crcInit).bytesCounter + 5,
            crcUpdate (TW.mk ⟨10, []⟩ [7, 8, 9] 3 crcInit).crc out⟩) ∧
      ((TW.mk ⟨10, []⟩ [7, 8, 9] 3 crcInit).sink.cap < 5 →
        twWritePrevious (TW.mk ⟨10, []⟩ [7, 8, 9] 3 crcInit) 2 5 =
          .errWith .bufferOverflow
            (twWrite (TW.mk ⟨10, []⟩ [7, 8, 9] 3 crcInit) out).2)) :=
  ⟨⟨by decide, by decide⟩,
    write_previous_spec (TW.mk ⟨10, []⟩ [7, 8, 9] 3 crcInit) 2 5
      (by decide) (by decide)⟩

/-! ## Canonical-code arithmetic (toward claim C2) -/

theorem sAux_firstCode (L : List Nat) :
    ∀ b, firstCode L b + (if b = 0 then 0 else L.count b) = sAux L b := by
  intro b
  induction b with
  | zero => rfl
  | succ b ih =>
    show 2 * (firstCode L b + if b = 0 then 0 else L.count b) + L.count (b + 1)
        = sAux L (b + 1)
    rw [ih]
    rfl

theorem sAux_le_shift (L : List Nat) (b : Nat) :
    ∀ m, b ≤ m → 2 ^ (m - b) * sAux L b ≤ sAux L m := by
  intro m
  induction m with
  | zero => intro h; simp_all
  | succ m ih =>
    intro h
    rcases Nat.eq_or_lt_of_le h with rfl | hlt
    · simp
    · have hb : b ≤ m := by omega
      have h1 := ih hb
      have h2 : sAux L (m + 1) = 2 * sAux L m + L.count (m + 1) := rfl
      have h3 : m + 1 - b = (m - b) + 1 := by omega
      rw [h3, pow_succ]
      have h4 : 2 ^ (m - b) * 2 * sAux L b = 2 * (2 ^ (m - b) * sAux L b) := by
        ring
      rw [h4]
      omega

theorem sAux_cons (x : Nat) (L : List Nat) :
    ∀ b, sAux (x :: L) b =
      sAux L b + (if 1 ≤ x ∧ x ≤ b then 2 ^ (b - x) else 0) := by
  intro b
  induction b with
  | zero =>
    have h0 : ¬(1 ≤ x ∧ x ≤ 0) := by omega
    rw [if_neg h0]
    rfl
  | succ b ih =>
    have h1 : sAux (x :: L) (b + 1)
        = 2 * sAux (x :: L) b + (x :: L).count (b + 1) := rfl
    have h2 : (x :: L).count (b + 1)
        = L.count (b + 1) + if x == b + 1 then 1 else 0 := List.count_cons _ _ _
    have h3 : sAux L (b + 1) = 2 * sAux L b + L.count (b + 1) := rfl
    rw [h1, ih, h2, h3]
    simp only [beq_iff_eq]
    by_cases hx0 : 1 ≤ x
    · by_cases hxb : x ≤ b
      · have he : 2 ^ (b + 1 - x) = 2 * 2 ^ (b - x) := by
          rw [show b + 1 - x = (b - x) + 1 by omega, pow_succ]
          ring
        rw [if_pos (show 1 ≤ x ∧ x ≤ b from ⟨hx0, hxb⟩),
          if_pos (show 1 ≤ x ∧ x ≤ b + 1 from ⟨hx0, by omega⟩),
          if_neg (show ¬x = b + 1 by omega)]
        omega
      · by_cases hxe : x = b + 1
        · rw [if_neg (show ¬(1 ≤ x ∧ x ≤ b) by omega),
            if_pos (show 1 ≤ x ∧ x ≤ b + 1 by omega), if_pos hxe,
            show b + 1 - x = 0 by omega, pow_zero]
          omega
        · rw [if_neg (show ¬(1 ≤ x ∧ x ≤ b) by omega),
            if_neg (show ¬(1 ≤ x ∧ x ≤ b + 1) by omega), if_neg hxe]
          omega
    · rw [if_neg (show ¬(1 ≤ x ∧ x ≤ b) by omega),
        if_neg (show ¬(1 ≤ x ∧ x ≤ b + 1) by omega),
        if_neg (show ¬x = b + 1 by omega)]
      omega

theorem sAux15_eq_kraft (L : List Nat) (hL : ∀ x ∈ L, x ≤ 15) :
    sAux L 15 = kraftSum L := by
  induction L with
  | nil =>
    have : ∀ b, sAux ([] : List Nat) b = 0 := by
      intro b
      induction b with
      | zero => rfl
      | succ b ih =>
        show 2 * sAux [] b + List.count _ [] = 0
        rw [ih]
        rfl
    simp [this, kraftSum]
  | cons x rest ih =>
    have hx : x ≤ 15 := hL x (by simp)
    have hrest : ∀ y ∈ rest, y ≤ 15 := fun y hy => hL y (by simp [hy])
    have h1 : kraftSum (x :: rest)
        = (if x = 0 then 0 else 2 ^ (15 - x)) + kraftSum rest := by
      simp [kraftSum]
    rw [sAux_cons, ih hrest, h1]
    by_cases hx0 : x = 0
    · subst hx0
      simp
    · have : 1 ≤ x ∧ x ≤ 15 := ⟨by omega, hx⟩
      simp only [if_pos this, if_neg hx0]
      ring

theorem sAux_le (L : List Nat) (hL : ∀ x ∈ L, x ≤ 15)
    (hK : kraftSum L ≤ 2 ^ 15) : ∀ b, b ≤ 15 → sAux L b ≤ 2 ^ b := by
  intro b hb
  have h1 := sAux_le_shift L b 15 hb
  rw [sAux15_eq_kraft L hL] at h1
  have h2 : 2 ^ (15 - b) * sAux L b ≤ 2 ^ 15 := le_trans h1 hK
  have h3 : (2 : Nat) ^ 15 = 2 ^ (15 - b) * 2 ^ b := by
    rw [← pow_add]
    congr 1
    omega
  rw [h3] at h2
  exact Nat.le_of_mul_le_mul_left h2 (by positivity)

theorem count_le_sAux (L : List Nat) : ∀ b, 1 ≤ b → L.count b ≤ sAux L b := by
  intro b hb
  match b, hb with
  | b + 1, _ =>
    show L.count (b + 1) ≤ 2 * sAux L b + L.count (b + 1)
    omega

theorem fc_cnt_le (L : List Nat) (hL : ∀ x ∈ L, x ≤ 15)
    (hK : kraftSum L ≤ 2 ^ 15) :
    ∀ b, 1 ≤ b → b ≤ 15 → firstCode L b + L.count b ≤ 2 ^ b := by
  intro b h1 h15
  have h2 := sAux_firstCode L b
  rw [if_neg (by omega : ¬b = 0)] at h2
  rw [h2]
  exact sAux_le L hL hK b h15

theorem fc_grow (L : List Nat) :
    ∀ l j, 1 ≤ j → j < l →
      2 ^ (l - j) * (firstCode L j + L.count j) ≤ firstCode L l := by
  intro l
  induction l with
  | zero => intro j _ h; omega
  | succ l ih =>
    intro j hj hlt
    rcases Nat.lt_or_ge j l with hlt2 | hge
    · have h1 := ih j hj hlt2
      have h2 : firstCode L (l + 1)
          = 2 * (firstCode L l + if l = 0 then 0 else L.count l) := rfl
      have h3 : l + 1 - j = (l - j) + 1 := by omega
      rw [h2, if_neg (show ¬l = 0 by omega), h3, pow_succ]
      have h4 : 2 ^ (l - j) * 2 * (firstCode L j + L.count j)
          = 2 * (2 ^ (l - j) * (firstCode L j + L.count j)) := by ring
      rw [h4]
      omega
    · have hj_eq : j = l := by omega
      subst hj_eq
      have h2 : firstCode L (j + 1)
          = 2 * (firstCode L j + if j = 0 then 0 else L.count j) := rfl
      rw [h2, if_neg (by omega : ¬j = 0), show j + 1 - j = 1 by omega, pow_one]

/-! ## The bl_count and next_code loops compute counts and first codes -/

theorem blCount_run :
    ∀ (ls : List Nat) (f : Nat → Nat), (∀ x ∈ ls, x < 16) →
      (∀ b, f b < 65536) →
      ∃ g, ls.foldl blCountStep (some f) = some g ∧ (∀ b, g b < 65536) ∧
        ∀ b, g b = (f b + ls.count b) % 65536 := by
  intro ls
  induction ls with
  | nil =>
    intro f _ hf
    refine ⟨f, rfl, hf, fun b => ?_⟩
    simp [Nat.mod_eq_of_lt (hf b)]
  | cons a rest ih =>
    intro f hmem hf
    have ha : a < 16 := hmem a (by simp)
    have hstep : blCountStep (some f) a = some (updFn f a (w16 (f a + 1))) := by
      simp [blCountStep, ha]
    have hf' : ∀ b, updFn f a (w16 (f a + 1)) b < 65536 := by
      intro b
      unfold updFn w16
      split
      · exact Nat.mod_lt _ (by omega)
      · exact hf b
    obtain ⟨g, hg, hglt, hgeq⟩ :=
      ih (updFn f a (w16 (f a + 1))) (fun x hx => hmem x (by simp [hx])) hf'
    refine ⟨g, ?_, hglt, ?_⟩
    · rw [List.foldl_cons, hstep]
      exact hg
    · intro b
      rw [hgeq b]
      have hcnt : (a :: rest).count b
          = rest.count b + if a == b then 1 else 0 := List.count_cons _ _ _
      by_cases hba : b = a
      · subst hba
        have hupd : updFn f b (w16 (f b + 1)) b = w16 (f b + 1) := by
          simp [updFn]
        rw [hupd, hcnt, if_pos (by simp)]
        unfold w16
        omega
      · have hupd : updFn f a (w16 (f a + 1)) b = f b := by
          simp [updFn, hba]
        rw [hupd, hcnt, if_neg (by simp; omega)]
        omega

theorem blCountLoop_spec (L : List Nat) (hL : ∀ x ∈ L, x ≤ 15) :
    ∃ g, blCountLoop L = some g ∧ ∀ b, g b = L.count b % 65536 := by
  obtain ⟨g, h1, _, h3⟩ :=
    blCount_run L (fun _ => 0) (fun x hx => by have := hL x hx; omega)
      (fun _ => by exact (by decide : (0 : Nat) < 65536))
  exact ⟨g, h1, fun b => by simpa using h3 b⟩

theorem count_small (L : List Nat) (hL : ∀ x ∈ L, x ≤ 15)
    (hK : kraftSum L ≤ 2 ^ 15) :
    ∀ b, 1 ≤ b → b ≤ 15 → L.count b < 65536 := by
  intro b h1 h15
  have ha := count_le_sAux L b h1
  have hb := sAux_le L hL hK b h15
  have hc : (2 : Nat) ^ b ≤ 2 ^ 15 := Nat.pow_le_pow_right (by omega) h15
  have hd : (2 : Nat) ^ 15 = 32768 := by norm_num
  omega

theorem nextCodeVal_eq_firstCode (L : List Nat) (g : Nat → Nat)
    (hL : ∀ x ∈ L, x ≤ 15) (hK : kraftSum L ≤ 2 ^ 15)
    (hg : ∀ b, g b = L.count b % 65536) :
    ∀ b, b ≤ 15 → nextCodeVal (updFn g 0 0) b = firstCode L b := by
  intro b
  induction b with
  | zero => intro _; rfl
  | succ b ih =>
    intro hb
    have hb' : b ≤ 15 := by omega
    have h1 : nextCodeVal (updFn g 0 0) (b + 1)
        = w16 ((nextCodeVal (updFn g 0 0) b + updFn g 0 0 b) <<< 1) := rfl
    have h2 : firstCode L (b + 1)
        = 2 * (firstCode L b + if b = 0 then 0 else L.count b) := rfl
    rw [h1, ih hb', Nat.shiftLeft_eq, h2]
    by_cases hb0 : b = 0
    · subst hb0
      have : updFn g 0 0 0 = 0 := by simp [updFn]
      rw [this]
      rfl
    · have hupd : updFn g 0 0 b = L.count b % 65536 := by
        simp [updFn, hb0, hg]
      have hcnt : L.count b % 65536 = L.count b :=
        Nat.mod_eq_of_lt (count_small L hL hK b (by omega) hb')
      rw [hupd, hcnt, if_neg hb0]
      have hs := sAux_firstCode L b
      rw [if_neg hb0] at hs
      have hle : firstCode L b + L.count b ≤ 2 ^ b := by
        rw [hs]
        exact sAux_le L hL hK b hb'
      have hpow : (2 : Nat) ^ b * 2 ≤ 2 ^ 15 := by
        have : (2 : Nat) ^ (b + 1) ≤ 2 ^ 15 := Nat.pow_le_pow_right (by omega) hb
        rw [pow_succ] at this
        omega
      unfold w16
      rw [Nat.mod_eq_of_lt (by omega)]
      ring

/-! ## The assignment loop of from_lengths builds the canonical entries -/

theorem getD_of_lt (L : List Nat) (i : Nat) (h : i < L.length) :
    L.getD i 0 = L[i] := by
  simp [List.getD, List.getElem?_eq_getElem h]

theorem canonEntries_succ (L : List Nat) (i : Nat) :
    canonEntries L (i + 1) = canonEntries L i ++
      (if i < L.length ∧ L.getD i 0 ≠ 0 then
        [(⟨canonCode L i, L.getD i 0⟩, i)]
      else []) := rfl

theorem canonEntries_stable (L : List Nat) :
    ∀ i, L.length ≤ i → canonEntries L i = canonEntries L L.length := by
  have key : ∀ k, canonEntries L (L.length + k) = canonEntries L L.length := by
    intro k
    induction k with
    | zero => rfl
    | succ k ih =>
      rw [show L.length + (k + 1) = (L.length + k) + 1 by omega,
        canonEntries_succ, if_neg (fun h => absurd h.1 (by omega)),
        List.append_nil, ih]
  intro i hi
  have : i = L.length + (i - L.length) := by omega
  rw [this, key]

theorem mem_canonEntries (L : List Nat) :
    ∀ n p, p ∈ canonEntries L n →
      ∃ t, t < n ∧ t < L.length ∧ L.getD t 0 ≠ 0 ∧
        p = (⟨canonCode L t, L.getD t 0⟩, t) := by
  intro n
  induction n with
  | zero => intro p hp; cases hp
  | succ n ih =>
    intro p hp
    rcases List.mem_append.mp hp with h | h
    · obtain ⟨t, ht, h2, h3, h4⟩ := ih p h
      exact ⟨t, by omega, h2, h3, h4⟩
    · by_cases hc : n < L.length ∧ L.getD n 0 ≠ 0
      · rw [if_pos hc] at h
        rcases List.mem_singleton.mp h with rfl
        exact ⟨n, by omega, hc.1, hc.2, rfl⟩
      · rw [if_neg hc] at h
        cases h

theorem count_take_succ (L : List Nat) (i : Nat) (b : Nat)
    (h : i < L.length) :
    (L.take (i + 1)).count b
      = (L.take i).count b + if L[i] == b then 1 else 0 := by
  rw [List.take_succ, List.getElem?_eq_getElem h]
  show ((L.take i) ++ [L[i]]).count b = _
  rw [List.count_append]
  congr 1
  rw [List.count_cons, List.count_nil]
  omega

theorem count_take_lt (L : List Nat) (t i x : Nat) (ht : t < i)
    (hti : t < L.length) (hx : L[t] = x) :
    (L.take t).count x < (L.take i).count x := by
  have h1 : (L.take (t + 1)).count x = (L.take t).count x + 1 := by
    rw [count_take_succ L t x hti, hx, if_pos (by simp)]
  have h3 : (L.take (t + 1)).count x ≤ (L.take i).count x := by
    have hsplit : L.take i = L.take (t + 1) ++ (L.drop (t + 1)).take (i - (t + 1)) := by
      rw [← List.take_add]
      congr 1
      omega
    rw [hsplit, List.count_append]
    omega
  omega

theorem count_take_le (L : List Nat) (i x : Nat) :
    (L.take i).count x ≤ L.count x :=
  (List.take_sublist i L).count_le x

theorem canonCode_lt_fc_cnt (L : List Nat) (t : Nat) (ht : t < L.length)
    (hne : L.getD t 0 ≠ 0) :
    canonCode L t < firstCode L (L.getD t 0) + L.count (L.getD t 0) := by
  unfold canonCode rankOf
  have h1 : (L.take t).count (L.getD t 0) < (L.take L.length).count (L.getD t 0) :=
    count_take_lt L t L.length (L.getD t 0) ht ht (getD_of_lt L t ht).symm
  rw [List.take_length] at h1
  omega

theorem getD_mem (L : List Nat) (t : Nat) (ht : t < L.length) :
    L.getD t 0 ∈ L := by
  rw [getD_of_lt L t ht]
  exact List.getElem_mem ht

theorem canonCode_lt_pow (L : List Nat) (hL : ∀ x ∈ L, x ≤ 15)
    (hK : kraftSum L ≤ 2 ^ 15) (t : Nat) (ht : t < L.length)
    (hne : L.getD t 0 ≠ 0) : canonCode L t < 2 ^ L.getD t 0 := by
  have h1 := canonCode_lt_fc_cnt L t ht hne
  have h2 := fc_cnt_le L hL hK (L.getD t 0) (by omega) (hL _ (getD_mem L t ht))
  omega

theorem assign_go (L : List Nat) (hL : ∀ x ∈ L, x ≤ 15)
    (hK : kraftSum L ≤ 2 ^ 15) :
    ∀ (suf : List Nat) (i : Nat) (nc : Nat → Nat),
      L.drop i = suf →
      (∀ b, 1 ≤ b → b ≤ 15 → nc b = firstCode L b + (L.take i).count b) →
      ((suf.enumFrom i).foldl (assignStep (fun n => some n))
          (nc, canonEntries L i)).2
        = canonEntries L L.length := by
  intro suf
  induction suf with
  | nil =>
    intro i nc hdrop _
    have hlen : L.length ≤ i := by
      by_contra hcon
      rw [List.drop_eq_getElem_cons (by omega)] at hdrop
      cases hdrop
    exact canonEntries_stable L i hlen
  | cons x rest ih =>
    intro i nc hdrop hnc
    have hi : i < L.length := by
      by_contra hcon
      rw [List.drop_eq_nil_of_le (by omega)] at hdrop
      cases hdrop
    have hcons := List.drop_eq_getElem_cons (l := L) hi
    rw [hdrop] at hcons
    injection hcons with hx hrest
    have hgetD : L.getD i 0 = x := by rw [getD_of_lt L i hi, ← hx]
    rw [List.enumFrom_cons, List.foldl_cons]
    by_cases hx0 : x = 0
    · have hstep : assignStep (fun n => some n) (nc, canonEntries L i) (i, x)
          = (nc, canonEntries L i) := by
        subst hx0
        rfl
      rw [hstep]
      have hce : canonEntries L i = canonEntries L (i + 1) := by
        rw [canonEntries_succ,
          if_neg (by rw [hgetD]; omega : ¬(i < L.length ∧ L.getD i 0 ≠ 0)),
          List.append_nil]
      rw [hce]
      refine ih (i + 1) nc hrest.symm ?_
      intro b h1 h15
      rw [hnc b h1 h15, count_take_succ L i b hi]
      rw [if_neg (by simp [← hx]; omega)]
      omega
    · -- positive length: the symbol is inserted with its canonical code
      have hx1 : 1 ≤ x := by omega
      have hx15 : x ≤ 15 := by
        have := hL (L.getD i 0) (getD_mem L i hi)
        omega
      have hncx : nc x = canonCode L i := by
        rw [hnc x hx1 hx15]
        unfold canonCode rankOf
        rw [hgetD]
      have hlt : canonCode L i < 2 ^ x := by
        have := canonCode_lt_pow L hL hK i hi (by rw [hgetD]; omega)
        rwa [hgetD] at this
      have hkey : bsNew (nc x) x = ⟨canonCode L i, x⟩ := by
        unfold bsNew
        rw [hncx, Nat.mod_eq_of_lt hlt]
      have hfresh : (canonEntries L i).any
          (fun p => p.1 == (⟨canonCode L i, x⟩ : BitSeq)) = false := by
        rw [List.any_eq_false]
        intro p hp
        obtain ⟨t, ht, htl, htne, hpe⟩ := mem_canonEntries L i p hp
        subst hpe
        simp only [beq_iff_eq]
        intro hcontra
        have hfst : (⟨canonCode L t, L.getD t 0⟩ : BitSeq).bits = canonCode L i
            ∧ (⟨canonCode L t, L.getD t 0⟩ : BitSeq).len = x := by
          rw [hcontra]
          exact ⟨rfl, rfl⟩
        have htx : L.getD t 0 = x := hfst.2
        have hcc : canonCode L t = canonCode L i := hfst.1
        have hrank : (L.take t).count x < (L.take i).count x := by
          refine count_take_lt L t i x ht htl ?_
          rw [← getD_of_lt L t htl, htx]
        have hcct : canonCode L t = firstCode L x + (L.take t).count x := by
          unfold canonCode rankOf
          rw [htx]
        have hcci : canonCode L i = firstCode L x + (L.take i).count x := by
          unfold canonCode rankOf
          rw [hgetD]
        omega
      have hstep : assignStep (fun n => some n) (nc, canonEntries L i) (i, x)
          = (updFn nc x (w16 (nc x + 1)),
            canonEntries L i ++ [(⟨canonCode L i, x⟩, i)]) := by
        show (if x = 0 then _ else _) = _
        rw [if_neg hx0]
        show (_, insertA (canonEntries L i) (bsNew (nc x) x) i) = _
        rw [hkey]
        unfold insertA
        rw [hfresh]
        rfl
      rw [hstep]
      have hce : canonEntries L i ++ [(⟨canonCode L i, x⟩, i)]
          = canonEntries L (i + 1) := by
        rw [canonEntries_succ, if_pos (⟨hi, by rw [hgetD]; omega⟩ :
          i < L.length ∧ L.getD i 0 ≠ 0), hgetD]
      rw [hce]
      refine ih (i + 1) (updFn nc x (w16 (nc x + 1))) hrest.symm ?_
      intro b h1 h15
      by_cases hbx : b = x
      · subst hbx
        have hupd : updFn nc b (w16 (nc b + 1)) b = w16 (nc b + 1) := by
          simp [updFn]
        have hcnt1 : (L.take (i + 1)).count b = (L.take i).count b + 1 := by
          rw [count_take_succ L i b hi, if_pos (by simp [← hx, ← hgetD])]
        have hbound : firstCode L b + (L.take i).count b + 1 ≤ 2 ^ b := by
          have hfc := fc_cnt_le L hL hK b h1 h15
          have hct : (L.take (i + 1)).count b ≤ L.count b := count_take_le L _ _
          omega
        have hpow : (2 : Nat) ^ b ≤ 32768 := by
          calc (2 : Nat) ^ b ≤ 2 ^ 15 := Nat.pow_le_pow_right (by omega) h15
          _ = 32768 := by norm_num
        rw [hupd, hnc b h1 h15, hcnt1]
        unfold w16
        rw [Nat.mod_eq_of_lt (by omega)]
        omega
      · have hupd : updFn nc x (w16 (nc x + 1)) b = nc b := by
          simp [updFn, hbx]
        rw [hupd, hnc b h1 h15, count_take_succ L i b hi,
          if_neg (by simp [← hx]; omega)]
        omega

theorem fromLengths_total (L : List Nat) (hL : ∀ x ∈ L, x ≤ 15)
    (hK : kraftSum L ≤ 2 ^ 15) :
    fromLengths (fun n => some n) L = some (canonEntries L L.length) := by
  obtain ⟨g, hg, hgeq⟩ := blCountLoop_spec L hL
  unfold fromLengths
  rw [hg]
  show some (((L.enum).foldl _ (nextCodeVal (updFn g 0 0), [])).2) = _
  rw [List.enum_eq_enumFrom]
  congr 1
  refine assign_go L hL hK L 0 (nextCodeVal (updFn g 0 0)) rfl ?_
  intro b h1 h15
  rw [nextCodeVal_eq_firstCode L g hL hK hgeq b h15]
  simp

/-! ## Lookup facts on the canonical code map -/

theorem canonCode_mono (L : List Nat) (t s : Nat) (ht : t < s)
    (htl : t < L.length) (hts : L.getD t 0 = L.getD s 0) :
    canonCode L t < canonCode L s := by
  unfold canonCode rankOf
  rw [hts]
  have h := count_take_lt L t s (L.getD s 0) ht htl
    (by rw [← getD_of_lt L t htl, hts])
  omega

theorem canon_find_self (L : List Nat) (s : Nat) (hs : s < L.length)
    (hpos : L.getD s 0 ≠ 0) :
    ∀ n, s < n →
      (canonEntries L n).find?
          (fun p => p.1 == (⟨canonCode L s, L.getD s 0⟩ : BitSeq))
        = some (⟨canonCode L s, L.getD s 0⟩, s) := by
  intro n
  induction n with
  | zero => intro h; omega
  | succ n ih =>
    intro hlt
    rw [canonEntries_succ, List.find?_append]
    rcases Nat.lt_or_ge s n with hsn | hge
    · rw [ih hsn]
      rfl
    · have hse : s = n := by omega
      subst hse
      have hnone : (canonEntries L s).find?
          (fun p => p.1 == (⟨canonCode L s, L.getD s 0⟩ : BitSeq)) = none := by
        rw [List.find?_eq_none]
        intro p hp
        obtain ⟨t, htn, htl, htne, hpe⟩ := mem_canonEntries L s p hp
        subst hpe
        simp only [beq_iff_eq]
        intro hcontra
        injection hcontra with hbits hlen
        have := canonCode_mono L t s htn htl hlen
        omega
      rw [hnone, if_pos ⟨hs, hpos⟩]
      simp [List.find?]

theorem lookupA_canon_self (L : List Nat) (s : Nat) (hs : s < L.length)
    (hpos : L.getD s 0 ≠ 0) :
    lookupA (canonEntries L L.length) ⟨canonCode L s, L.getD s 0⟩ = some s := by
  unfold lookupA
  rw [canon_find_self L s hs hpos L.length hs]
  rfl

theorem lookupA_canon_prefix_none (L : List Nat) (hL : ∀ x ∈ L, x ≤ 15)
    (hK : kraftSum L ≤ 2 ^ 15) (s : Nat) (hs : s < L.length)
    (hpos : L.getD s 0 ≠ 0) (j : Nat) (hj1 : 1 ≤ j)
    (hjlt : j < L.getD s 0) :
    lookupA (canonEntries L L.length)
      ⟨canonCode L s >>> (L.getD s 0 - j), j⟩ = none := by
  unfold lookupA
  have hnone : (canonEntries L L.length).find?
      (fun p => p.1 == (⟨canonCode L s >>> (L.getD s 0 - j), j⟩ : BitSeq))
      = none := by
    rw [List.find?_eq_none]
    intro p hp
    obtain ⟨t, htn, htl, htne, hpe⟩ := mem_canonEntries L L.length p hp
    subst hpe
    simp only [beq_iff_eq]
    intro hcontra
    injection hcontra with hbits hlen
    -- the prefix value is at least firstCode j + count j, above every code of
    -- length j
    have h1 : canonCode L t < firstCode L j + L.count j := by
      have := canonCode_lt_fc_cnt L t htl htne
      rwa [hlen] at this
    have h2 : 2 ^ (L.getD s 0 - j) * (firstCode L j + L.count j)
        ≤ firstCode L (L.getD s 0) := fc_grow L (L.getD s 0) j hj1 hjlt
    have h3 : firstCode L (L.getD s 0) ≤ canonCode L s := by
      unfold canonCode
      omega
    have h4 : firstCode L j + L.count j
        ≤ canonCode L s >>> (L.getD s 0 - j) := by
      rw [Nat.shiftRight_eq_div_pow]
      rw [Nat.le_div_iff_mul_le (by positivity)]
      calc (firstCode L j + L.count j) * 2 ^ (L.getD s 0 - j)
          = 2 ^ (L.getD s 0 - j) * (firstCode L j + L.count j) := by ring
        _ ≤ firstCode L (L.getD s 0) := h2
        _ ≤ canonCode L s := h3
    omega
  rw [hnone]
  rfl

/-! ## Bit-level view of the BitReader -/

theorem bufBitsList_zero (bits : Nat) : bufBitsList ⟨bits, 0⟩ = [] := rfl

theorem bufBitsList_succ (bits k : Nat) :
    bufBitsList ⟨bits, k + 1⟩
      = bits.testBit 0 :: bufBitsList ⟨bits >>> 1, k⟩ := by
  unfold bufBitsList
  show (List.range (k + 1)).map _ = _
  rw [List.range_succ_eq_map, List.map_cons, List.map_map]
  congr 1
  apply List.map_congr_left
  intro i _
  show Nat.testBit bits (i + 1) = Nat.testBit (bits >>> 1) i
  rw [Nat.testBit_shiftRight]
  congr 1
  omega

theorem bufBits_byte (y : Nat) : bufBitsList ⟨y % 256, 8⟩ = byteBits y := by
  unfold bufBitsList byteBits
  apply List.map_congr_left
  intro i hi
  have h8 : i < 8 := List.mem_range.mp hi
  show Nat.testBit (y % 256) i = Nat.testBit y i
  rw [show (256 : Nat) = 2 ^ 8 by norm_num, Nat.testBit_mod_two_pow]
  simp [h8]

theorem byteBits_decomp (y : Nat) :
    byteBits y = (y % 256).testBit 0 :: bufBitsList ⟨(y % 256) >>> 1, 7⟩ := by
  rw [← bufBits_byte y]
  exact bufBitsList_succ (y % 256) 7

theorem bitVal_mod_two (x : Nat) : bitVal (x.testBit 0) = x % 2 := by
  rw [Nat.testBit_zero]
  rcases Nat.mod_two_eq_zero_or_one x with h | h <;> simp [bitVal, h]

theorem readBits_one (st : RdState) (hinv : rdInv st) :
    (rdView st = [] → readBits st 1 = none) ∧
    (∀ b rest, rdView st = b :: rest →
      ∃ st', readBits st 1 = some (⟨bitVal b, 1⟩, st') ∧ rdView st' = rest ∧
        rdInv st') := by
  obtain ⟨stream, bits, blen⟩ := st
  match blen with
  | 0 =>
    have hbits : bits = 0 := by
      have h0 : bits < 2 ^ 0 := hinv
      omega
    subst hbits
    have hview : rdView ⟨stream, 0, 0⟩ = streamBits stream := by
      unfold rdView
      rw [bufBitsList_zero]
      rfl
    match stream with
    | [] =>
      refine ⟨fun _ => rfl, fun b rest hbr => ?_⟩
      rw [hview] at hbr
      cases hbr
    | y :: r =>
      refine ⟨fun hcon => ?_, fun b rest hbr => ?_⟩
      · rw [hview] at hcon
        unfold streamBits byteBits at hcon
        cases hcon
      · rw [hview] at hbr
        unfold streamBits at hbr
        rw [byteBits_decomp y] at hbr
        have hb : b = (y % 256).testBit 0 := by
          injection hbr with h1 h2
          exact h1.symm
        have hrest : rest
            = bufBitsList ⟨(y % 256) >>> 1, 7⟩ ++ streamBits r := by
          injection hbr with h1 h2
          exact h2.symm
        refine ⟨⟨r, (y % 256) >>> 1, 7⟩, ?_, ?_, ?_⟩
        · show readBitsGo (y :: r) ⟨0, 0⟩ (bsNew 0 0) 1 = _
          have h1 : readBitsGo (y :: r) ⟨0, 0⟩ (bsNew 0 0) 1
              = readBitsGo r (bsNew y 8) ((bsNew 0 0).concat ⟨0, 0⟩) 1 := rfl
          have h2 : (bsNew 0 0).concat ⟨0, 0⟩ = bsNew 0 0 := rfl
          have h3 : readBitsGo r (bsNew y 8) (bsNew 0 0) 1
              = some ((bsNew 0 0).concat (bsNew (y % 256 % 2 ^ 1) 1),
                ⟨r, ⟨(y % 256) >>> 1, 7⟩⟩) := by
            cases r <;> rfl
          rw [h1, h2, h3]
          have h4 : (bsNew 0 0).concat (bsNew (y % 256 % 2 ^ 1) 1)
              = ⟨y % 256 % 2, 1⟩ := by
            simp only [bsNew, BitSeq.concat, Nat.shiftLeft_eq,
              BitSeq.mk.injEq, pow_zero, pow_one, Nat.mul_one, and_true] <;> omega
          rw [h4, hb]
          have h5 : bitVal ((y % 256).testBit 0) = y % 256 % 2 :=
            bitVal_mod_two (y % 256)
          rw [h5]
        · rw [hrest]
          rfl
        · show (y % 256) >>> 1 < 2 ^ 7
          rw [Nat.shiftRight_eq_div_pow]
          have hy : y % 256 < 256 := Nat.mod_lt _ (by omega)
          omega
  | k + 1 =>
    have hview : rdView ⟨stream, bits, k + 1⟩
        = bits.testBit 0
          :: (bufBitsList ⟨bits >>> 1, k⟩ ++ streamBits stream) := by
      unfold rdView
      rw [bufBitsList_succ]
      rfl
    refine ⟨fun hcon => ?_, fun b rest hbr => ?_⟩
    · rw [hview] at hcon
      cases hcon
    · rw [hview] at hbr
      have hb : b = bits.testBit 0 := by
        injection hbr with h1 h2
        exact h1.symm
      have hrest : rest = bufBitsList ⟨bits >>> 1, k⟩ ++ streamBits stream := by
        injection hbr with h1 h2
        exact h2.symm
      refine ⟨⟨stream, bits >>> 1, k⟩, ?_, ?_, ?_⟩
      · show readBitsGo stream ⟨bits, k + 1⟩ (bsNew 0 0) 1 = _
        have h1 : readBitsGo stream ⟨bits, k + 1⟩ (bsNew 0 0) 1
            = some ((bsNew 0 0).concat (bsNew (bits % 2 ^ 1) 1),
              ⟨stream, ⟨bits >>> 1, k + 1 - 1⟩⟩) := by
          unfold readBitsGo
          split
          · rfl
          · rename_i h
            exfalso
            simp only [not_le] at h
            omega
        rw [h1]
        have h4 : (bsNew 0 0).concat (bsNew (bits % 2 ^ 1) 1)
            = ⟨bits % 2, 1⟩ := by
          simp only [bsNew, BitSeq.concat, Nat.shiftLeft_eq,
            BitSeq.mk.injEq, pow_zero, pow_one, Nat.mul_one, and_true] <;> omega
        rw [h4, hb]
        have h5 : bitVal (bits.testBit 0) = bits % 2 := bitVal_mod_two bits
        rw [h5]
        rfl
      · rw [hrest]
        rfl
      · show bits >>> 1 < 2 ^ k
        have hlt : bits < 2 ^ (k + 1) := hinv
        rw [Nat.shiftRight_eq_div_pow]
        rw [pow_succ] at hlt
        omega

/-! ## Running read_symbol along a canonical code word -/

theorem bitVal_testBit (x i : Nat) : bitVal (x.testBit i) = x / 2 ^ i % 2 := by
  have h : (x >>> i).testBit 0 = x.testBit i := by
    rw [Nat.testBit_shiftRight]
    simp
  rw [← h, bitVal_mod_two (x >>> i), Nat.shiftRight_eq_div_pow]

theorem readSymbolGo_step {α : Type} (M : List (BitSeq × α)) (st st1 : RdState)
    (cur bit : BitSeq) (f : Nat) (hrb : readBits st 1 = some (bit, st1)) :
    readSymbolGo M st cur (f + 1)
      = match lookupA M (bit.concat cur) with
        | some v => .ok (v, st1)
        | none => readSymbolGo M st1 (bit.concat cur) f := by
  have h0 : readSymbolGo M st cur (f + 1)
      = match readBits st 1 with
        | none => Except.error Err.eof
        | some (bit', st') =>
          match lookupA M (bit'.concat cur) with
          | some v => Except.ok (v, st')
          | none => readSymbolGo M st' (bit'.concat cur) f := rfl
  rw [h0, hrb]

theorem readSymbolGo_run (L : List Nat) (hL : ∀ x ∈ L, x ≤ 15)
    (hK : kraftSum L ≤ 2 ^ 15) (s : Nat) (hs : s < L.length)
    (hpos : L.getD s 0 ≠ 0) :
    ∀ m, 1 ≤ m → m ≤ L.getD s 0 → ∀ st rest,
      rdView st = (List.range m).map
        (fun i => (canonCode L s).testBit (m - 1 - i)) ++ rest →
      rdInv st →
      ∃ st', readSymbolGo (canonEntries L L.length) st
        ⟨canonCode L s >>> m, L.getD s 0 - m⟩ (15 - (L.getD s 0 - m))
        = .ok (s, st') := by
  intro m
  induction m with
  | zero => omega
  | succ m ih =>
    intro h1 hle st rest hview hinv
    have hl15 : L.getD s 0 ≤ 15 := hL _ (getD_mem L s hs)
    obtain ⟨f, hf⟩ : ∃ f, 15 - (L.getD s 0 - (m + 1)) = f + 1 :=
      ⟨14 - (L.getD s 0 - (m + 1)), by omega⟩
    -- split the head bit off the view
    rw [List.range_succ_eq_map, List.map_cons, List.map_map,
      List.cons_append] at hview
    obtain ⟨st1, hrb, hview1, hinv1⟩ :=
      (readBits_one st hinv).2 _ _ hview
    have hcur : (⟨bitVal ((canonCode L s).testBit (m + 1 - 1 - 0)), 1⟩ :
          BitSeq).concat ⟨canonCode L s >>> (m + 1), L.getD s 0 - (m + 1)⟩
        = ⟨canonCode L s >>> m, L.getD s 0 - m⟩ := by
      unfold BitSeq.concat
      have hb : bitVal ((canonCode L s).testBit (m + 1 - 1 - 0))
          = canonCode L s / 2 ^ m % 2 := by
        rw [show m + 1 - 1 - 0 = m by omega]
        exact bitVal_testBit _ m
      have hdd : canonCode L s >>> (m + 1) = canonCode L s / 2 ^ m / 2 := by
        rw [Nat.shiftRight_eq_div_pow, pow_succ]
        rw [Nat.div_div_eq_div_mul]
      have hdm : canonCode L s >>> m = canonCode L s / 2 ^ m := by
        rw [Nat.shiftRight_eq_div_pow]
      rw [hb, hdd, hdm, Nat.shiftLeft_eq, pow_one]
      have hlen2 : 1 + (L.getD s 0 - (m + 1)) = L.getD s 0 - m := by omega
      rw [hlen2]
      congr 1
      dsimp only
      omega
    rw [hf]
    rcases Nat.eq_zero_or_pos m with hm0 | hmpos
    · -- the full code has been read: the map lookup hits symbol s
      subst hm0
      refine ⟨st1, ?_⟩
      rw [readSymbolGo_step _ st st1 _ _ f hrb, hcur]
      have hself : lookupA (canonEntries L L.length)
          ⟨canonCode L s >>> 0, L.getD s 0 - 0⟩ = some s := by
        rw [Nat.shiftRight_zero, Nat.sub_zero]
        exact lookupA_canon_self L s hs hpos
      rw [hself]
    · -- a proper prefix: no entry matches, the loop continues
      have hview1' : rdView st1 = (List.range m).map
          (fun i => (canonCode L s).testBit (m - 1 - i)) ++ rest := by
        rw [hview1]
        congr 1
        apply List.map_congr_left
        intro i hi
        have him : i < m := List.mem_range.mp hi
        show (canonCode L s).testBit (m + 1 - 1 - (i + 1)) = _
        congr 1
        omega
      obtain ⟨st', hrun⟩ := ih (by omega) (by omega) st1 rest hview1' hinv1
      refine ⟨st', ?_⟩
      rw [readSymbolGo_step _ st st1 _ _ f hrb, hcur]
      have hnone : lookupA (canonEntries L L.length)
          ⟨canonCode L s >>> m, L.getD s 0 - m⟩ = none := by
        have hj1 : 1 ≤ L.getD s 0 - m := by omega
        have hjlt : L.getD s 0 - m < L.getD s 0 := by omega
        have := lookupA_canon_prefix_none L hL hK s hs hpos
          (L.getD s 0 - m) hj1 hjlt
        rwa [show L.getD s 0 - (L.getD s 0 - m) = m by omega] at this
      rw [hnone]
      have hfm : f = 15 - (L.getD s 0 - m) := by omega
      rw [hfm]
      exact hrun

/-- Claim C2. For any code-length vector L with every entry at most 15 whose
Kraft sum equals 2^15 (Kraft equality), from_lengths (with a total symbol
conversion, as in the unit tests) succeeds and builds exactly the canonical
entries; and for every symbol s with a positive length, feeding a bit stream
that starts with s's canonical code (most significant code bit first) to
read_symbol returns exactly s. -/
theorem huffman_canonical_roundtrip (L : List Nat) (s : Nat) (st : RdState)
    (hlen : ∀ x ∈ L, x ≤ 15) (hkraft : kraftSum L = 2 ^ 15)
    (hs : s < L.length) (hpos : L.getD s 0 ≠ 0)
    (hview : ∃ rest, rdView st
      = codeBitsMSB (canonCode L s) (L.getD s 0) ++ rest)
    (hinv : rdInv st) :
    fromLengths (fun n => some n) L = some (canonEntries L L.length) ∧
    ∃ st', readSymbol (canonEntries L L.length) st = .ok (s, st') := by
  have hK : kraftSum L ≤ 2 ^ 15 := le_of_eq hkraft
  refine ⟨fromLengths_total L hlen hK, ?_⟩
  obtain ⟨rest, hv⟩ := hview
  have hl1 : 1 ≤ L.getD s 0 := by omega
  obtain ⟨st', hr⟩ := readSymbolGo_run L hlen hK s hs hpos (L.getD s 0) hl1
    (le_refl _) st rest hv hinv
  refine ⟨st', ?_⟩
  show readSymbolGo _ st (bsNew 0 0) 15 = _
  have hc0 : canonCode L s >>> L.getD s 0 = 0 := by
    rw [Nat.shiftRight_eq_div_pow]
    exact Nat.div_eq_of_lt (canonCode_lt_pow L hlen hK s hs hpos)
  have hb0 : (bsNew 0 0 : BitSeq)
      = ⟨canonCode L s >>> L.getD s 0, L.getD s 0 - L.getD s 0⟩ := by
    rw [hc0, Nat.sub_self]
    rfl
  rw [hb0, show (15 : Nat) = 15 - (L.getD s 0 - L.getD s 0) by
    rw [Nat.sub_self]]
  exact hr

/-- Witness for `huffman_canonical_roundtrip` at the length vector
[2, 3, 4, 3, 3, 4, 2] (the from_lengths unit test of the source), symbol 1,
whose canonical code is 100 of length 3; the reader holds the single byte
0b00000001 (code bits 1,0,0 then five zero padding bits). -/
theorem huffman_canonical_roundtrip_witness :
    ((∀ x ∈ [2, 3, 4, 3, 3, 4, 2], x ≤ 15) ∧
      kraftSum [2, 3, 4, 3, 3, 4, 2] = 2 ^ 15 ∧
      1 < ([2, 3, 4, 3, 3, 4, 2] : List Nat).length ∧
      [2, 3, 4, 3, 3, 4, 2].getD 1 0 ≠ 0 ∧
      rdView ⟨[1], bsNew 0 0⟩
        = codeBitsMSB (canonCode [2, 3, 4, 3, 3, 4, 2] 1)
            ([2, 3, 4, 3, 3, 4, 2].getD 1 0) ++
          [false, false, false, false, false] ∧
      rdInv ⟨[1], bsNew 0 0⟩) ∧
    (fromLengths (fun n => some n) [2, 3, 4, 3, 3, 4, 2]
        = some (canonEntries [2, 3, 4, 3, 3, 4, 2]
            ([2, 3, 4, 3, 3, 4, 2] : List Nat).length) ∧
      ∃ st', readSymbol (canonEntries [2, 3, 4, 3, 3, 4, 2]
          ([2, 3, 4, 3, 3, 4, 2] : List Nat).length) ⟨[1], bsNew 0 0⟩
        = .ok (1, st')) :=
  ⟨⟨by decide, by decide, by decide, by decide, by decide,
      by unfold rdInv; decide⟩,
    huffman_canonical_roundtrip [2, 3, 4, 3, 3, 4, 2] 1 ⟨[1], bsNew 0 0⟩
      (by decide) (by decide) (by decide) (by decide)
      ⟨[false, false, false, false, false], by decide⟩
      (by unfold rdInv; decide)⟩
